import Mathlib

/-!
Verification development for the batched primal-dual interior-point QP solver
`lcp_physics/lcp/solvers/batch_pdipm.py`.

The numerical code is shallowly embedded over `ℚ` (exact arithmetic; the
idealisation of IEEE floating point standard for algorithmic verification,
with the Lean convention `q / 0 = 0`).  Vectors are `List ℚ`, matrices are
`List (List ℚ)` (row major).  A single batch element is modelled
(`nBatch = 1`) except for `get_step`, whose cross-batch `a.max()` coupling
is kept batched.  The backend LU factorisation (`torch.btrifact`,
LAPACK `getrf`) is embedded as an executable partial-pivoting LU over `ℚ`
that fails (returns `none`, modelling the raised exception) exactly when a
pivot column is entirely zero; `torch.btrisolve` is embedded as pivot
application plus forward/backward substitution.  The euclidean norm used in
the residuals is irrational-valued, so it is abstracted as a function
parameter `normQ` of the problem record; every control-flow theorem below
holds for an arbitrary norm function.
-/

/-- Minimum of a list of rationals (`torch.min` over a row); `0` on the
empty list, which never arises in real solver calls. -/
def listMin : List ℚ → ℚ
  | [] => 0
  | [a] => a
  | a :: b :: t => min a (listMin (b :: t))

/-- Maximum of a list of rationals (`torch.max` over a row); `0` on the
empty list. -/
def listMax : List ℚ → ℚ
  | [] => 0
  | [a] => a
  | a :: b :: t => max a (listMax (b :: t))

/-- Dot product of two rational vectors. -/
def dotQ (a b : List ℚ) : ℚ := (List.zipWith (· * ·) a b).sum

/-- Componentwise vector addition. -/
def vecAdd (a b : List ℚ) : List ℚ := List.zipWith (· + ·) a b

/-- Componentwise vector subtraction. -/
def vecSub (a b : List ℚ) : List ℚ := List.zipWith (· - ·) a b

/-- Componentwise vector negation. -/
def vecNeg (a : List ℚ) : List ℚ := a.map (fun x => -x)

/-- Scalar multiple of a vector. -/
def smulVec (c : ℚ) (a : List ℚ) : List ℚ := a.map (fun x => c * x)

/-- Zero vector of a given length. -/
def zeroVec (n : ℕ) : List ℚ := List.replicate n 0

/-- Sum of absolute values; a concrete norm used to instantiate the
abstract norm parameter in witnesses. -/
def sumAbs (v : List ℚ) : ℚ := (v.map (fun x => |x|)).sum

/-- Number of columns of a row-major matrix (taken from its first row). -/
def numCols (M : List (List ℚ)) : ℕ := (M.headD []).length

/-- Matrix transpose by column extraction. -/
def transpose (M : List (List ℚ)) : List (List ℚ) :=
  (List.range (numCols M)).map (fun j => M.map (fun r => r.getD j 0))

/-- Matrix product (`torch.bmm` on one batch element). -/
def matMul (A B : List (List ℚ)) : List (List ℚ) :=
  A.map (fun ar => (List.range (numCols B)).map (fun j => dotQ ar (B.map (fun r => r.getD j 0))))

/-- Row-vector times matrix, `v^T M` (`torch.bmm(v.unsqueeze(1), M)`). -/
def vecMat (v : List ℚ) (M : List (List ℚ)) : List ℚ :=
  (List.range (numCols M)).map (fun j => dotQ v (M.map (fun r => r.getD j 0)))

/-- Componentwise matrix addition. -/
def matAdd (A B : List (List ℚ)) : List (List ℚ) :=
  List.zipWith (fun ra rb => List.zipWith (· + ·) ra rb) A B

/-- Componentwise matrix subtraction. -/
def matSub (A B : List (List ℚ)) : List (List ℚ) :=
  List.zipWith (fun ra rb => List.zipWith (· - ·) ra rb) A B

/-- Zero matrix. -/
def zeroMat (n m : ℕ) : List (List ℚ) := List.replicate n (zeroVec m)

/-- Identity matrix. -/
def identityMat (n : ℕ) : List (List ℚ) :=
  (List.range n).map (fun i => (List.range n).map (fun j => if i = j then (1 : ℚ) else 0))

/-- Swap two rows of a matrix (identity when an index is out of range;
in-range in every real execution). -/
def swapRows (M : List (List ℚ)) (i j : ℕ) : List (List ℚ) :=
  if i < M.length ∧ j < M.length then
    let ri := M.getD i []
    let rj := M.getD j []
    (M.set i rj).set j ri
  else M

/-- Swap two entries of a vector (identity when an index is out of range). -/
def swapEntries (v : List ℚ) (i j : ℕ) : List ℚ :=
  if i < v.length ∧ j < v.length then
    let xi := v.getD i 0
    let xj := v.getD j 0
    (v.set i xj).set j xi
  else v

/-- Add a vector to the diagonal of a matrix
(`T[factor_kkt_eye] += (1. / d)` in `factor_kkt`). -/
def addDiag (M : List (List ℚ)) (v : List ℚ) : List (List ℚ) :=
  (List.range M.length).map (fun i =>
    let r := M.getD i []
    r.set i (r.getD i 0 + v.getD i 0))

/-- 2x2 block assembly `[[B11 B12], [B21 B22]]` by row concatenation
(`torch.cat` of the four `S_LU` blocks in `pre_factor_kkt`). -/
def blockCat (B11 B12 B21 B22 : List (List ℚ)) : List (List ℚ) :=
  List.zipWith (· ++ ·) B11 B12 ++ List.zipWith (· ++ ·) B21 B22

/-- Strictly lower-triangular part with unit diagonal
(the `L` factor extracted by `torch.btriunpack`). -/
def unitLower (M : List (List ℚ)) : List (List ℚ) :=
  (List.range M.length).map (fun i =>
    (List.range (numCols M)).map (fun j =>
      if j < i then (M.getD i []).getD j 0 else if j = i then (1 : ℚ) else 0))

/-- Upper-triangular part including the diagonal
(the `U` factor extracted by `torch.btriunpack`). -/
def upperOf (M : List (List ℚ)) : List (List ℚ) :=
  (List.range M.length).map (fun i =>
    (List.range (numCols M)).map (fun j =>
      if i ≤ j then (M.getD i []).getD j 0 else 0))

/-- Index of the first entry of maximal absolute value: worker. -/
def argmaxAbsGo : List ℚ → ℕ → ℕ → ℚ → ℕ
  | [], _, bi, _ => bi
  | x :: t, i, bi, bv => if |bv| < |x| then argmaxAbsGo t (i + 1) i x else argmaxAbsGo t (i + 1) bi bv

/-- Index of the first entry of maximal absolute value (LAPACK partial
pivot selection). -/
def argmaxAbs : List ℚ → ℕ
  | [] => 0
  | x :: t => argmaxAbsGo t 1 0 x

/-- One Gaussian-elimination row: positions `< k` unchanged, position `k`
receives the stored multiplier, positions `> k` are reduced by the pivot
row. -/
def elimRow (pivRow r : List ℚ) (k : ℕ) : List ℚ :=
  let f := r.getD k 0 / pivRow.getD k 0
  (List.range r.length).map (fun j =>
    if j < k then r.getD j 0 else if j = k then f else r.getD j 0 - f * pivRow.getD j 0)

/-- One step of LU factorisation with partial pivoting at column `k`:
pick the maximal-magnitude pivot at or below the diagonal, fail when the
remaining column is zero (the singular case, where `torch.btrifact`
raises), otherwise swap and eliminate. -/
def luStep (M : List (List ℚ)) (k : ℕ) : Option (List (List ℚ) × ℕ) :=
  let p := k + argmaxAbs ((M.drop k).map (fun r => r.getD k 0))
  let M1 := swapRows M k p
  let pr := M1.getD k []
  if pr.getD k 0 = 0 then none
  else some (M1.take (k + 1) ++ (M1.drop (k + 1)).map (fun r => elimRow pr r k), p)

/-- LU factorisation driver over the list of column indices. -/
def luGo : List (List ℚ) → List ℕ → Option (List (List ℚ) × List ℕ)
  | M, [] => some (M, [])
  | M, k :: ks =>
    match luStep M k with
    | none => none
    | some (M2, p) =>
      match luGo M2 ks with
      | none => none
      | some (D, ps) => some (D, p :: ps)

/-- LU factorisation with partial pivoting (`torch.btrifact` on one batch
element): returns the packed `L\U` data and the pivot indices, or `none`
exactly when the matrix is singular. -/
def luFactor (M : List (List ℚ)) : Option (List (List ℚ) × List ℕ) :=
  luGo M (List.range M.length)

/-- Apply a LAPACK pivot sequence to a right-hand-side vector:
for each `k`, swap entries `k` and `piv[k]`. -/
def applyPivots (piv : List ℕ) (b : List ℚ) : List ℚ :=
  ((List.range piv.length).zip piv).foldl (fun acc kp => swapEntries acc kp.1 kp.2) b

/-- Forward substitution worker (unit lower-triangular solve). -/
def fsGo : List (List ℚ × ℚ) → List ℚ → List ℚ
  | [], ys => ys
  | (row, bk) :: rest, ys => fsGo rest (ys ++ [bk - dotQ (row.take ys.length) ys])

/-- Forward substitution against the strictly-lower multipliers of packed
LU data. -/
def forwardSub (D : List (List ℚ)) (b : List ℚ) : List ℚ := fsGo (D.zip b) []

/-- Backward substitution worker, consuming the rows bottom-up. -/
def bsGo : List ((List ℚ × ℚ) × ℕ) → List ℚ → List ℚ
  | [], xs => xs
  | ((row, yk), k) :: rest, xs =>
    bsGo rest (((yk - dotQ (row.drop (k + 1)) xs) / row.getD k 0) :: xs)

/-- Backward substitution against the upper triangle of packed LU data. -/
def backSub (D : List (List ℚ)) (y : List ℚ) : List ℚ :=
  bsGo ((D.zip y).zip (List.range D.length)).reverse []

/-- Triangular solve against a packed LU factorisation
(`b.btrisolve(*LU)` on one batch element). -/
def luSolveVec (lu : List (List ℚ) × List ℕ) (b : List ℚ) : List ℚ :=
  backSub lu.1 (forwardSub lu.1 (applyPivots lu.2 b))

/-- Triangular solve with a matrix right-hand side, column by column
(`B.btrisolve(*LU)` where `B` is `(n, k)`-shaped). -/
def luSolveMat (lu : List (List ℚ) × List ℕ) (B : List (List ℚ)) : List (List ℚ) :=
  transpose ((transpose B).map (luSolveVec lu))

/-- Permutation matrix of a LAPACK pivot sequence
(`torch.btriunpack` pivot unpacking): successive row swaps applied to the
identity. -/
def permFromPivots (piv : List ℕ) (n : ℕ) : List (List ℚ) :=
  ((List.range piv.length).zip piv).foldl (fun M kp => swapRows M kp.1 kp.2) (identityMat n)

/-- `get_step(v, dv)` from `batch_pdipm.py` lines 345-349, batched exactly
as the source: `a = -v/dv`; entries at positions with `dv > 0` are
replaced by `max(1.0, a.max())` where `a.max()` ranges over ALL entries of
the batch; the result is the per-row minimum. -/
def get_step (v dv : List (List ℚ)) : List ℚ :=
  let a := List.zipWith (fun vr dvr => List.zipWith (fun vi dvi => -vi / dvi) vr dvr) v dv
  let m := max 1 (listMax (a.map listMax))
  let a2 := List.zipWith (fun ar dvr => List.zipWith (fun ai dvi => if 0 < dvi then m else ai) ar dvr) a dv
  a2.map listMin

/-- `get_step` on a single batch element, as called from `forward`
(`nBatch = 1`). -/
def stepOf (v dv : List ℚ) : ℚ := (get_step [v] [dv]).headD 0

/-- The row of ratios `-v_i / dv_i`. -/
def rowRatio (v dv : List ℚ) : List ℚ := List.zipWith (fun a b => -a / b) v dv

/-- The ratio row after the `a[dv > 0] = m` replacement. -/
def rowGuard (m : ℚ) (v dv : List ℚ) : List ℚ :=
  List.zipWith (fun a b => if 0 < b then m else -a / b) v dv

/-- The ratios at the positions where the direction is negative:
`{ -v_i/dv_i : dv_i < 0 }`. -/
def negRatios (v dv : List ℚ) : List ℚ :=
  (v.zip dv).filterMap (fun p => if p.2 < 0 then some (-p.1 / p.2) else none)

/-- The positivity shift of `forward` lines 167-173 on one batch row:
if the row minimum is non-positive, subtract `min - 1` from every entry. -/
def shiftPos (v : List ℚ) : List ℚ :=
  let m := listMin v
  if m ≤ 0 then v.map (fun x => x - (m - 1)) else v

/-- The per-iteration state update `v += alpha * dv`
(`forward` lines 334-337). -/
def updVec (alpha : ℚ) (v dv : List ℚ) : List ℚ :=
  List.zipWith (fun a b => a + alpha * b) v dv

/-- The damped combined step length
`alpha = min(0.999 * min(get_step(z, dz), get_step(s, ds)), 1)`
(`forward` lines 327-329). -/
def stepAlpha (z dz s ds : List ℚ) : ℚ :=
  min (999 / 1000 * min (stepOf z dz) (stepOf s ds)) 1

/-- The affine step length
`alpha = min(min(get_step(z, dz_aff), get_step(s, ds_aff)), 1)`
(`forward` lines 272-274). -/
def alphaAff (z dz s ds : List ℚ) : ℚ :=
  min (min (stepOf z dz) (stepOf s ds)) 1

/-- Mehrotra centering parameter `sig = (t3 / t4) ** 3` with
`t1 = s + alpha*ds_aff`, `t2 = z + alpha*dz_aff`, `t3 = sum(t1*t2)`,
`t4 = sum(s*z)` (`forward` lines 276-280). -/
def sigOf (s z ds dz : List ℚ) (alpha : ℚ) : ℚ :=
  let t1 := List.zipWith (fun si dsi => si + alpha * dsi) s ds
  let t2 := List.zipWith (fun zi dzi => zi + alpha * dzi) z dz
  let t3 := (List.zipWith (· * ·) t1 t2).sum
  let t4 := (List.zipWith (· * ·) s z).sum
  (t3 / t4) ^ 3

/-- Corrector slack-residual right-hand side
`rs = ((-mu*sig).repeat + ds_aff * dz_aff) / s` (`forward` line 283). -/
def corrRs (mu sig : ℚ) (ds dz s : List ℚ) : List ℚ :=
  List.zipWith (fun pd si => (-mu * sig + pd) / si) (List.zipWith (· * ·) ds dz) s

/-- Duality measure `mu = abs((s * z).sum(1) / nineq)`
(`forward` line 190, one batch element). -/
def muOf (s z : List ℚ) (nineq : ℕ) : ℚ :=
  |(List.zipWith (· * ·) s z).sum / (nineq : ℚ)|

/-- The duality-measure formula asserted by the claim: the mean of the
`nineq` componentwise products divided again by `nineq`. -/
def muClaim (s z : List ℚ) (nineq : ℕ) : ℚ :=
  ((List.zipWith (· * ·) s z).sum / (nineq : ℚ)) / (nineq : ℚ)

/-- The cached factors produced once per QP instance by `pre_factor_kkt`
and mutated by `factor_kkt` (the in-place mutation is modelled by explicit
state passing). -/
structure KKTCache where
  qlu : List (List ℚ) × List ℕ
  slu : List (List ℚ) × List ℕ
  R : List (List ℚ)
deriving Repr

/-- A primal-dual Newton direction `(dx, ds, dz, dy)`; `dy = none` encodes
Python `None` when there are no equality constraints. -/
structure Dirs where
  dx : List ℚ
  ds : List ℚ
  dz : List ℚ
  dy : Option (List ℚ)
deriving Repr

/-- The `best` tracking dictionary of `forward` line 175 on one batch
element: `None` entries before the first record. -/
structure BestT where
  resids : Option ℚ
  x : Option (List ℚ)
  z : Option (List ℚ)
  s : Option (List ℚ)
  y : Option (List ℚ)
deriving Repr

/-- The observable outcome of `forward`: the returned
`(best x, best y, best z, best s)` plus whether the non-fatal inaccuracy
warning (`INACC_ERR` print) was emitted. -/
structure PDResult where
  x : Option (List ℚ)
  y : Option (List ℚ)
  z : Option (List ℚ)
  s : Option (List ℚ)
  warned : Bool
deriving Repr

/-- The mutable state of one iteration of the `forward` loop. -/
structure LoopSt where
  cache : KKTCache
  x : List ℚ
  s : List ℚ
  z : List ℚ
  y : Option (List ℚ)
  best : BestT
  nNI : ℕ
deriving Repr

/-- A propagated Python exception of the `forward` entry point: for the
partial-factorisation strategy the only unguarded failure point is the
initial `factor_kkt` call (line 115). -/
inductive SolverErr where
  | initFactorization
deriving Repr, DecidableEq

/-- The failure modes of `pre_factor_kkt`: the guarded `Q` factorisation
failure re-raised with the "Q not PSD" diagnostic (lines 790-797), and an
unguarded backend factorisation failure propagating from the equality
block (line 816). -/
inductive PreErr where
  | qNotPSD
  | backendFactorization
deriving Repr, DecidableEq

/-- `solve_kkt(Q_LU, d, G, A, S_LU, rx, rs, rz, ry)`
(`batch_pdipm.py` lines 754-783): block elimination of the reweighted KKT
system using the completed partial factorisation. -/
def solve_kkt (qlu : List (List ℚ) × List ℕ) (d : List ℚ) (G : List (List ℚ))
    (A : Option (List (List ℚ))) (slu : List (List ℚ) × List ℕ)
    (rx rs rz : List ℚ) (ry : Option (List ℚ)) : Dirs :=
  let neq := (A.getD []).length
  let invQ_rx := luSolveVec qlu rx
  let hv :=
    if 0 < neq then
      vecSub (vecMat invQ_rx (transpose (A.getD []))) (ry.getD []) ++
        vecSub (vecAdd (vecMat invQ_rx (transpose G)) (List.zipWith (· / ·) rs d)) rz
    else vecSub (vecAdd (vecMat invQ_rx (transpose G)) (List.zipWith (· / ·) rs d)) rz
  let w := vecNeg (luSolveVec slu hv)
  let g1a := vecSub (vecNeg rx) (vecMat (w.drop neq) G)
  let g1 := if 0 < neq then vecSub g1a (vecMat (w.take neq) (A.getD [])) else g1a
  let g2 := vecSub (vecNeg rs) (w.drop neq)
  { dx := luSolveVec qlu g1
    ds := List.zipWith (· / ·) g2 d
    dz := w.drop neq
    dy := if 0 < neq then some (w.take neq) else none }

/-- `pre_factor_kkt(Q, G, F, A)` (`batch_pdipm.py` lines 786-837): factor
`Q` (re-raising a "Q not PSD / non-invertible" diagnostic on failure),
cache `R = G Q^{-1} G^T + F`, and with equality constraints present factor
the `A Q^{-1} A^T` block (an UNGUARDED backend call), assemble the partial
`S_LU` and subtract the cross-term correction from `R`. -/
def pre_factor_kkt (Q G F : List (List ℚ)) (A : Option (List (List ℚ))) :
    Except PreErr KKTCache :=
  let nineq := G.length
  let neq := (A.getD []).length
  match luFactor Q with
  | none => .error .qNotPSD
  | some qlu =>
    let G_invQ_GT := matAdd (matMul G (luSolveMat qlu (transpose G))) F
    if 0 < neq then
      let Am := A.getD []
      let invQ_AT := luSolveMat qlu (transpose Am)
      let A_invQ_AT := matMul Am invQ_AT
      let G_invQ_AT := matMul G invQ_AT
      match luFactor A_invQ_AT with
      | none => .error .backendFactorization
      | some alu =>
        let P := permFromPivots alu.2 neq
        let L := unitLower alu.1
        let U := upperOf alu.1
        let U_inv := luSolveMat alu (matMul P L)
        let S21 := matMul G_invQ_AT U_inv
        let T := luSolveMat alu (transpose G_invQ_AT)
        let S12 := matMul U T
        let data := blockCat alu.1 S12 S21 (zeroMat nineq nineq)
        let piv := alu.2 ++ (List.range nineq).map (fun j => j + neq)
        .ok ⟨qlu, (data, piv), matSub G_invQ_GT (matMul G_invQ_AT T)⟩
    else
      .ok ⟨qlu, (zeroMat nineq nineq, List.range nineq), G_invQ_GT⟩

/-- `factor_kkt(S_LU, R, d)` (`batch_pdipm.py` lines 843-879, CPU path):
complete the lower-right `nineq x nineq` block of `S_LU` as the
factorisation of `T = R + diag(1/d)` (`none` when `torch.btrifact` of `T`
raises), re-pivot the `S_LU_21` block against the new pivots and install
the new block and pivots; `Q_LU` and `R` are passed through untouched. -/
def factor_kkt (c : KKTCache) (d : List ℚ) : Option KKTCache :=
  let nineq := d.length
  let neq := c.slu.2.length - nineq
  let T := addDiag c.R (d.map (fun di => 1 / di))
  match luFactor T with
  | none => none
  | some Tlu =>
    let oldPacked := (c.slu.2.drop neq).map (fun q => q - neq)
    let oldP := permFromPivots oldPacked nineq
    let newP := permFromPivots Tlu.2 nineq
    let S21 := (c.slu.1.drop neq).map (fun r => r.take neq)
    let S21n := if 0 < neq then matMul (transpose newP) (matMul oldP S21) else S21
    let data := c.slu.1.take neq ++ List.zipWith (· ++ ·) S21n Tlu.1
    let piv := c.slu.2.take neq ++ Tlu.2.map (fun q => q + neq)
    some ⟨c.qlu, (data, piv), c.R⟩

/-- One `forward` problem instance for the partial-factorisation strategy
(`solver=KKTSolvers.LU_PARTIAL`, the default): the QP data, the cached
factors (source arguments `Q_LU, S_LU, R`), the configuration, and the
abstract residual norm (`torch.norm(., 2)`, irrational-valued, hence a
parameter). -/
structure Prob where
  Q : List (List ℚ)
  p : List ℚ
  G : List (List ℚ)
  h : List ℚ
  A : Option (List (List ℚ))
  b : Option (List ℚ)
  F : Option (List (List ℚ))
  cache : KKTCache
  eps : ℚ
  verbose : ℤ
  notImprovedLim : ℕ
  maxIter : ℕ
  normQ : List ℚ → ℚ

/-- Modelled from the spec: the sizing oracle `get_sizes` lives in
`lcp_physics/lcp/util`, outside the provided source; per spec section 4.1
it derives the sizes from the constraint-matrix shapes.  Number of
inequality constraints = rows of `G`. -/
def nineqOf (P : Prob) : ℕ := P.G.length

/-- Modelled from the spec (see `nineqOf`): number of variables = columns
of `G`. -/
def nzOf (P : Prob) : ℕ := numCols P.G

/-- Modelled from the spec (see `nineqOf`): number of equality
constraints = rows of `A`, `0` when `A` is absent. -/
def neqOf (P : Prob) : ℕ := (P.A.getD []).length

/-- `d = z / s` (`forward` line 197), the diagonal reweighting for the
current iterate. -/
def iterD (st : LoopSt) : List ℚ := List.zipWith (· / ·) st.z st.s

/-- Dual residual `rx = y^T A + z^T G + x^T Q^T + p`
(`forward` lines 180-183; the `y^T A` term only with `neq > 0`). -/
def iterRx (P : Prob) (st : LoopSt) : List ℚ :=
  let base := vecAdd (vecMat st.z P.G) (vecAdd (vecMat st.x (transpose P.Q)) P.p)
  if 0 < neqOf P then vecAdd (vecMat (st.y.getD []) (P.A.getD [])) base else base

/-- Slack residual `rs = z` (`forward` line 184). -/
def iterRs (st : LoopSt) : List ℚ := st.z

/-- Primal inequality residual `rz = x^T G^T + s - h (- z^T F^T when F is
present)` (`forward` lines 185-187). -/
def iterRz (P : Prob) (st : LoopSt) : List ℚ :=
  let r := vecSub (vecAdd (vecMat st.x (transpose P.G)) st.s) P.h
  match P.F with
  | some Fm => vecSub r (vecMat st.z (transpose Fm))
  | none => r

/-- Primal equality residual `ry = x^T A^T - b` when `neq > 0`
(`forward` lines 188-189). -/
def iterRy (P : Prob) (st : LoopSt) : Option (List ℚ) :=
  if 0 < neqOf P then some (vecSub (vecMat st.x (transpose (P.A.getD []))) (P.b.getD [])) else none

/-- Duality measure of the current iterate (`forward` line 190). -/
def iterMu (P : Prob) (st : LoopSt) : ℚ := muOf st.s st.z (nineqOf P)

/-- Combined residual `resids = pri_resid + dual_resid + nineq * mu`
(`forward` lines 191-195), for the abstract norm of the problem. -/
def iterResids (P : Prob) (st : LoopSt) : ℚ :=
  let zres := P.normQ (iterRz P st)
  let yres := if 0 < neqOf P then P.normQ ((iterRy P st).getD []) else 0
  let dual := P.normQ (iterRx P st)
  (yres + zres) + dual + (nineqOf P : ℚ) * iterMu P st

/-- Best-iterate tracking (`forward` lines 207-228, one batch element):
first iteration records the current iterate; afterwards the record is
replaced exactly when the combined residual strictly improves, and the
stall counter increments otherwise. -/
def iterBest (P : Prob) (st : LoopSt) : BestT × ℕ :=
  match st.best.resids with
  | none => (⟨some (iterResids P st), some st.x, some st.z, some st.s, st.y⟩, 0)
  | some br =>
    if iterResids P st < br then
      (⟨some (iterResids P st), some st.x, some st.z, some st.s, st.y⟩, 0)
    else (st.best, st.nNI + 1)

/-- Build the returned quadruple from the best record, emitting the
non-fatal inaccuracy warning exactly when the best residual exceeds `1`
AND `verbose >= 0` (`forward` lines 230-233 and 339-342). -/
def checkReturn (b : BestT) (verbose : ℤ) : PDResult :=
  ⟨b.x, b.y, b.z, b.s, decide (1 < b.resids.getD 0 ∧ 0 ≤ verbose)⟩

/-- The next loop state after a completed iteration (`forward` lines
323-337): combine affine and corrector directions and step by the damped
ratio-test length. -/
def mkNext (P : Prob) (st : LoopSt) (c2 : KKTCache) (dx ds dz : List ℚ)
    (dy : Option (List ℚ)) : LoopSt :=
  { cache := c2
    x := updVec (stepAlpha st.z dz st.s ds) st.x dx
    s := updVec (stepAlpha st.z dz st.s ds) st.s ds
    z := updVec (stepAlpha st.z dz st.s ds) st.z dz
    y :=
      if 0 < neqOf P then
        match st.y, dy with
        | some yv, some dyv => some (updVec (stepAlpha st.z dz st.s ds) yv dyv)
        | _, _ => none
      else none
    best := (iterBest P st).1
    nNI := (iterBest P st).2 }

/-- The observable outcome of one pass through the loop body. -/
inductive Outcome where
  | ret (r : PDResult)
  | cont (st : LoopSt)

/-- One iteration of the `forward` main loop (`batch_pdipm.py` lines
178-337, partial-factorisation strategy): residuals, reweighted
refactorisation (whose failure is caught and returns the best iterate,
lines 198-202), best tracking, the termination check (lines 229-233), the
affine solve, Mehrotra centering, the corrector solve, and the damped
update. -/
def loopBody (P : Prob) (st : LoopSt) : Outcome :=
  match factor_kkt st.cache (iterD st) with
  | none => Outcome.ret ⟨st.best.x, st.best.y, st.best.z, st.best.s, false⟩
  | some c2 =>
    if (iterBest P st).2 = P.notImprovedLim ∨ (iterBest P st).1.resids.getD 0 < P.eps ∨
        (10 : ℚ) ^ 100 < iterMu P st then
      Outcome.ret (checkReturn (iterBest P st).1 P.verbose)
    else
      let aff := solve_kkt c2.qlu (iterD st) P.G P.A c2.slu (iterRx P st) (iterRs st)
        (iterRz P st) (iterRy P st)
      let al := alphaAff st.z aff.dz st.s aff.ds
      let sg := sigOf st.s st.z aff.ds aff.dz al
      let rs2 := corrRs (iterMu P st) sg aff.ds aff.dz st.s
      let cor := solve_kkt c2.qlu (iterD st) P.G P.A c2.slu (zeroVec (nzOf P)) rs2
        (zeroVec (nineqOf P)) (if 0 < neqOf P then some (zeroVec (neqOf P)) else none)
      let dy :=
        match aff.dy, cor.dy with
        | some u, some w => some (vecAdd u w)
        | _, _ => none
      Outcome.cont (mkNext P st c2 (vecAdd aff.dx cor.dx) (vecAdd aff.ds cor.ds)
        (vecAdd aff.dz cor.dz) dy)

/-- The bounded main loop (`for i in range(maxIter)`, with the exhausted
return of lines 339-342). -/
def loopRun (P : Prob) : ℕ → LoopSt → PDResult
  | 0, st => checkReturn st.best P.verbose
  | f + 1, st =>
    match loopBody P st with
    | .ret r => r
    | .cont st2 => loopRun P f st2

/-- The initialisation phase of `forward` (lines 111-176, strategy
`LU_PARTIAL`): factor with the identity reweighting (line 115, an
UNGUARDED call whose failure propagates), solve for the initial iterate,
and shift `s` and `z` to strict positivity. -/
def initState (P : Prob) : Except SolverErr LoopSt :=
  match factor_kkt P.cache (List.replicate (nineqOf P) 1) with
  | none => .error .initFactorization
  | some c1 =>
    let dirs := solve_kkt c1.qlu (List.replicate (nineqOf P) 1) P.G P.A c1.slu P.p
      (zeroVec (nineqOf P)) (vecNeg P.h)
      (if 0 < neqOf P then some (vecNeg (P.b.getD [])) else none)
    .ok ⟨c1, dirs.dx, shiftPos dirs.ds, shiftPos dirs.dz, dirs.dy,
      ⟨none, none, none, none, none⟩, 0⟩

/-- The `forward` entry point for the partial-factorisation strategy:
initialisation followed by the bounded main loop.  A propagated Python
exception is an `Except.error`; every loop-internal numerical failure is
converted to a normal return of the best iterate. -/
def forward (P : Prob) : Except SolverErr PDResult :=
  match initState P with
  | .error e => .error e
  | .ok st => .ok (loopRun P P.maxIter st)

/-- Decidable condition: the initialisation succeeds and the reweighted
factorisation fails on the very first loop iteration (before any best
iterate has been recorded). -/
def firstIterFactorFails (P : Prob) : Bool :=
  match initState P with
  | .error _ => false
  | .ok st => (factor_kkt st.cache (iterD st)).isNone

/-- Strict componentwise positivity of a vector. -/
def allPos (l : List ℚ) : Prop := ∀ x ∈ l, 0 < x

/-- Positivity of the recorded best iterate: whatever slack/dual snapshot
is stored is strictly positive. -/
def bestPos (b : BestT) : Prop :=
  (∀ v, b.z = some v → allPos v) ∧ (∀ v, b.s = some v → allPos v)

/-- Concrete 1x1 problem (`min x^2/2 subject to x <= 0`-shaped data) whose
run records a best iterate on the first iteration and, with
`notImprovedLim = 0`, returns it immediately from the termination check
with combined residual `3`. -/
def probStall : Prob :=
  { Q := [[1]], p := [0], G := [[1]], h := [0], A := none, b := none, F := none,
    cache := ⟨([[1]], [0]), ([[0]], [0]), [[1]]⟩, eps := 0, verbose := 0,
    notImprovedLim := 0, maxIter := 5, normQ := sumAbs }

/-- The same problem with a negative log level, which suppresses the
inaccuracy warning in the source. -/
def probStallQuiet : Prob := { probStall with verbose := -1 }

/-- The loop state reached by `initState probStall` (checked by `rfl`
against the definition). -/
def stStall : LoopSt :=
  ⟨⟨([[1]], [0]), ([[2]], [0]), [[1]]⟩, [0], [1], [1], none,
    ⟨none, none, none, none, none⟩, 0⟩

/-- Concrete problem whose INITIAL `factor_kkt` call fails:
`R = [[-1]]` and the identity reweighting give `T = R + I = [[0]]`,
which is singular. -/
def probInitFail : Prob :=
  { Q := [[1]], p := [0], G := [[1]], h := [0], A := none, b := none, F := some [[-2]],
    cache := ⟨([[1]], [0]), ([[0]], [0]), [[-1]]⟩, eps := 0, verbose := 0,
    notImprovedLim := 3, maxIter := 20, normQ := sumAbs }

/-- Concrete problem (cache produced by
`pre_factor_kkt [[1]] [[1]] [[-3/2]] none`) whose initialisation succeeds
but whose FIRST in-loop reweighted factorisation fails:
after the init solve and shift, `s = [1]`, `z = [2]`, so
`T = R + diag(s/z) = [[-1/2 + 1/2]] = [[0]]`. -/
def probFirstIterFail : Prob :=
  { Q := [[1]], p := [0], G := [[1]], h := [-1], A := none, b := none, F := some [[-3/2]],
    cache := ⟨([[1]], [0]), ([[0]], [0]), [[-1/2]]⟩, eps := 0, verbose := 0,
    notImprovedLim := 3, maxIter := 1, normQ := sumAbs }

/-- A mid-loop state with a previously recorded best iterate and a
reweighting that makes the completed block singular
(`T = [[-1 + 1]] = [[0]]`). -/
def stMidFail : LoopSt :=
  ⟨⟨([[1]], [0]), ([[0]], [0]), [[-1]]⟩, [0], [1], [1], none,
    ⟨some 5, some [9], some [8], some [7], none⟩, 0⟩

/-- Concrete well-formed cache for the `factor_kkt` frame witness. -/
def cacheW9 : KKTCache := ⟨([[1]], [0]), ([[5]], [0]), [[2]]⟩

/-- The cache produced from `cacheW9` by `factor_kkt` with `d = [1]`
(checked by `rfl`). -/
def cacheW9out : KKTCache := ⟨([[1]], [0]), ([[3]], [0]), [[2]]⟩

/-- The best record produced on the first loop iteration of
`probStallQuiet` (combined residual `3`, exceeding the inaccuracy
threshold `1`). -/
def bestQuiet : BestT := ⟨some 3, some [0], some [1], some [1], none⟩

/-- The small reference QP for the strategy-equivalence check:
`min x^2/2 + x` subject to `-x <= 0` (so `Q = [[1]]`, `p = [1]`,
`G = [[-1]]`, `h = [0]`, no equality constraints, no `F` coupling), with
the source's default `eps = 1e-12` and three interior-point iterations.
The cache is the one produced by `pre_factor_kkt [[1]] [[-1]] [[0]] none`
(checked by `refProb_cache_eq` below); the residual norm is `sumAbs`,
which on the 1-dimensional residual blocks of this problem coincides
exactly with `torch.norm(., 2)`. -/
def refProb : Prob :=
  { Q := [[1]], p := [1], G := [[-1]], h := [0], A := none, b := none, F := none,
    cache := ⟨([[1]], [0]), ([[0]], [0]), [[1]]⟩, eps := 1 / 10 ^ 12, verbose := 0,
    notImprovedLim := 3, maxIter := 3, normQ := sumAbs }


theorem listMin_le_mem : ∀ (l : List ℚ) (x : ℚ), x ∈ l → listMin l ≤ x
  | [], x, h => absurd h (List.not_mem_nil x)
  | [a], x, h => by
    rcases List.mem_singleton.mp h with rfl
    exact le_of_eq rfl
  | a :: b :: t, x, h => by
    rcases List.mem_cons.mp h with rfl | h2
    · exact min_le_left _ _
    · exact le_trans (min_le_right _ _) (listMin_le_mem (b :: t) x h2)

theorem le_listMin : ∀ (l : List ℚ), l ≠ [] → ∀ c : ℚ, (∀ x ∈ l, c ≤ x) → c ≤ listMin l
  | [], h, _, _ => absurd rfl h
  | [a], _, c, h => h a (by simp)
  | a :: b :: t, _, c, h => by
    show c ≤ min a (listMin (b :: t))
    refine le_min (h a (by simp)) (le_listMin (b :: t) (by simp) c ?_)
    intro x hx
    exact h x (List.mem_cons_of_mem a hx)

theorem listMin_mem : ∀ (l : List ℚ), l ≠ [] → listMin l ∈ l
  | [], h => absurd rfl h
  | [a], _ => by simp [listMin]
  | a :: b :: t, _ => by
    show min a (listMin (b :: t)) ∈ a :: b :: t
    rcases le_total a (listMin (b :: t)) with h | h
    · rw [min_eq_left h]; exact List.mem_cons_self a _
    · rw [min_eq_right h]
      exact List.mem_cons_of_mem a (listMin_mem (b :: t) (by simp))

theorem listMin_nonneg (l : List ℚ) (h : ∀ x ∈ l, 0 ≤ x) : 0 ≤ listMin l := by
  cases l with
  | nil => exact le_of_eq rfl
  | cons a t => exact le_listMin (a :: t) (by simp) 0 h

theorem listMin_const : ∀ (l : List ℚ), l ≠ [] → ∀ m : ℚ, (∀ x ∈ l, x = m) → listMin l = m
  | [], h, _, _ => absurd rfl h
  | [a], _, m, h => h a (by simp)
  | a :: b :: t, _, m, h => by
    show min a (listMin (b :: t)) = m
    rw [h a (by simp), listMin_const (b :: t) (by simp) m
      (fun x hx => h x (List.mem_cons_of_mem a hx)), min_self]

theorem mem_le_listMax : ∀ (l : List ℚ) (x : ℚ), x ∈ l → x ≤ listMax l
  | [], x, h => absurd h (List.not_mem_nil x)
  | [a], x, h => by
    rcases List.mem_singleton.mp h with rfl
    exact le_of_eq rfl
  | a :: b :: t, x, h => by
    rcases List.mem_cons.mp h with rfl | h2
    · exact le_max_left _ _
    · exact le_trans (mem_le_listMax (b :: t) x h2) (le_max_right _ _)

theorem listMax_le : ∀ (l : List ℚ), l ≠ [] → ∀ c : ℚ, (∀ x ∈ l, x ≤ c) → listMax l ≤ c
  | [], h, _, _ => absurd rfl h
  | [a], _, c, h => h a (by simp)
  | a :: b :: t, _, c, h => by
    show max a (listMax (b :: t)) ≤ c
    refine max_le (h a (by simp)) (listMax_le (b :: t) (by simp) c ?_)
    intro x hx
    exact h x (List.mem_cons_of_mem a hx)

theorem zipWith_eq_map_zip {α β γ : Type} (f : α → β → γ) :
    ∀ (l1 : List α) (l2 : List β),
      List.zipWith f l1 l2 = (l1.zip l2).map (fun q => f q.1 q.2)
  | [], _ => by simp
  | _ :: _, [] => by simp
  | a :: t1, b :: t2 => by
    simp [List.zip_cons_cons, zipWith_eq_map_zip f t1 t2]

theorem zipWith_zipWith_same {α β γ δ : Type} (f : γ → β → δ) (g : α → β → γ) :
    ∀ (v : List α) (dv : List β),
      List.zipWith f (List.zipWith g v dv) dv = List.zipWith (fun a b => f (g a b) b) v dv
  | [], _ => by simp
  | _ :: _, [] => by simp
  | a :: t1, b :: t2 => by
    simp [zipWith_zipWith_same f g t1 t2]

theorem listMax_singleton (a : ℚ) : listMax [a] = a := rfl

theorem stepOf_eq (v dv : List ℚ) :
    stepOf v dv = listMin (rowGuard (max 1 (listMax (rowRatio v dv))) v dv) := by
  simp only [stepOf, get_step, List.zipWith_cons_cons, List.zipWith_nil_right,
    List.map_cons, List.map_nil, listMax_singleton, List.headD_cons]
  rw [zipWith_zipWith_same]
  rfl

theorem rowGuard_eq_map (m : ℚ) (v dv : List ℚ) :
    rowGuard m v dv = (v.zip dv).map (fun q => if 0 < q.2 then m else -q.1 / q.2) :=
  zipWith_eq_map_zip _ v dv

theorem rowRatio_eq_map (v dv : List ℚ) :
    rowRatio v dv = (v.zip dv).map (fun q => -q.1 / q.2) :=
  zipWith_eq_map_zip _ v dv

theorem stepOf_nonneg (v dv : List ℚ) (hv : allPos v) : 0 ≤ stepOf v dv := by
  rw [stepOf_eq]
  apply listMin_nonneg
  intro x hx
  rw [rowGuard_eq_map] at hx
  obtain ⟨q, hq, rfl⟩ := List.mem_map.mp hx
  have ha : 0 < q.1 := hv q.1 (List.of_mem_zip hq).1
  by_cases h2 : 0 < q.2
  · rw [if_pos h2]
    exact le_trans zero_le_one (le_max_left _ _)
  · rw [if_neg h2]
    rcases lt_or_eq_of_le (not_lt.mp h2) with hlt | heq
    · have : 0 < -q.1 / q.2 := by
        rw [neg_div, lt_neg, neg_zero]
        exact div_neg_of_pos_of_neg ha hlt
      exact this.le
    · rw [heq, div_zero]

theorem stepOf_le_ratio {v dv : List ℚ} {a b : ℚ} (hab : (a, b) ∈ v.zip dv)
    (hb : b < 0) : stepOf v dv ≤ -a / b := by
  rw [stepOf_eq]
  have hmem : (if 0 < b then max 1 (listMax (rowRatio v dv)) else -a / b) ∈
      rowGuard (max 1 (listMax (rowRatio v dv))) v dv := by
    rw [rowGuard_eq_map]
    exact List.mem_map.mpr ⟨(a, b), hab, rfl⟩
  rw [if_neg (not_lt.mpr hb.le)] at hmem
  exact listMin_le_mem _ _ hmem

theorem mem_negRatios {v dv : List ℚ} {x : ℚ} :
    x ∈ negRatios v dv ↔ ∃ q ∈ v.zip dv, q.2 < 0 ∧ x = -q.1 / q.2 := by
  unfold negRatios
  rw [List.mem_filterMap]
  constructor
  · rintro ⟨q, hq, hfq⟩
    by_cases h : q.2 < 0
    · rw [if_pos h] at hfq
      exact ⟨q, hq, h, (Option.some_injective _ hfq).symm⟩
    · rw [if_neg h] at hfq
      cases hfq
  · rintro ⟨q, hq, h, rfl⟩
    exact ⟨q, hq, by rw [if_pos h]⟩

theorem exists_pair_of_mem_right {v dv : List ℚ} (hlen : v.length = dv.length)
    {b : ℚ} (hb : b ∈ dv) : ∃ a, (a, b) ∈ v.zip dv := by
  obtain ⟨i, hi, rfl⟩ := List.mem_iff_getElem.mp hb
  have hiv : i < v.length := by omega
  have hz : i < (v.zip dv).length := by
    rw [List.length_zip]
    omega
  refine ⟨v[i], ?_⟩
  have he : (v.zip dv)[i] = (v[i], dv[i]) := List.getElem_zip
  rw [← he]
  exact List.getElem_mem hz

theorem stepOf_eq_negRatios (v dv : List ℚ) (hlen : v.length = dv.length)
    (hnz : ∀ x ∈ dv, x ≠ 0) (hneg : ∃ x ∈ dv, x < 0) :
    stepOf v dv = listMin (negRatios v dv) := by
  obtain ⟨b0, hb0mem, hb0⟩ := hneg
  obtain ⟨a0, hab0⟩ := exists_pair_of_mem_right hlen hb0mem
  have hne : negRatios v dv ≠ [] := by
    intro h
    have hm : (-a0 / b0) ∈ negRatios v dv := mem_negRatios.mpr ⟨(a0, b0), hab0, hb0, rfl⟩
    rw [h] at hm
    exact List.not_mem_nil _ hm
  apply le_antisymm
  · have hmem := listMin_mem _ hne
    obtain ⟨q, hq, hq2, heq⟩ := mem_negRatios.mp hmem
    rw [heq]
    exact stepOf_le_ratio hq hq2
  · rw [stepOf_eq]
    have hgne : rowGuard (max 1 (listMax (rowRatio v dv))) v dv ≠ [] := by
      rw [rowGuard_eq_map]
      intro h
      rw [List.map_eq_nil_iff] at h
      rw [h] at hab0
      exact List.not_mem_nil _ hab0
    apply le_listMin _ hgne
    intro x hx
    rw [rowGuard_eq_map] at hx
    obtain ⟨q, hq, rfl⟩ := List.mem_map.mp hx
    by_cases h2 : 0 < q.2
    · rw [if_pos h2]
      have hmem := listMin_mem _ hne
      obtain ⟨q', hq', hq'2, heq⟩ := mem_negRatios.mp hmem
      have hrr : listMin (negRatios v dv) ∈ rowRatio v dv := by
        rw [rowRatio_eq_map, heq]
        exact List.mem_map.mpr ⟨q', hq', rfl⟩
      exact le_trans (mem_le_listMax _ _ hrr) (le_max_right 1 _)
    · rw [if_neg h2]
      have hq2 : q.2 < 0 :=
        lt_of_le_of_ne (not_lt.mp h2) (hnz q.2 (List.of_mem_zip hq).2)
      exact listMin_le_mem _ _ (mem_negRatios.mpr ⟨q, hq, hq2, rfl⟩)

theorem listMin_negRatios_pos {v dv : List ℚ} (hv : allPos v)
    (hne : negRatios v dv ≠ []) : 0 < listMin (negRatios v dv) := by
  obtain ⟨q, hq, hq2, heq⟩ := mem_negRatios.mp (listMin_mem _ hne)
  rw [heq, neg_div, lt_neg, neg_zero]
  exact div_neg_of_pos_of_neg (hv q.1 (List.of_mem_zip hq).1) hq2

theorem stepOf_all_pos (v dv : List ℚ) (hlen : v.length = dv.length) (hne : dv ≠ [])
    (hv : allPos v) (hpos : ∀ x ∈ dv, 0 < x) : stepOf v dv = 1 := by
  have hrne : rowRatio v dv ≠ [] := by
    rw [rowRatio_eq_map]
    intro h
    rw [List.map_eq_nil_iff, List.zip_eq_nil_iff] at h
    rcases h with h | h
    · exact hne (List.length_eq_zero.mp (hlen ▸ congrArg List.length h))
    · exact hne h
  have hm : max 1 (listMax (rowRatio v dv)) = 1 := by
    apply max_eq_left
    refine le_trans (listMax_le _ hrne 0 ?_) zero_le_one
    intro x hx
    rw [rowRatio_eq_map] at hx
    obtain ⟨q, hq, rfl⟩ := List.mem_map.mp hx
    rw [neg_div, neg_nonpos]
    exact (div_pos (hv q.1 (List.of_mem_zip hq).1) (hpos q.2 (List.of_mem_zip hq).2)).le
  rw [stepOf_eq, hm]
  apply listMin_const _ ?_ 1
  · intro x hx
    rw [rowGuard_eq_map] at hx
    obtain ⟨q, hq, rfl⟩ := List.mem_map.mp hx
    rw [if_pos (hpos q.2 (List.of_mem_zip hq).2)]
  · rw [rowGuard_eq_map]
    intro h
    rw [List.map_eq_nil_iff, List.zip_eq_nil_iff] at h
    rcases h with h | h
    · exact hne (List.length_eq_zero.mp (hlen ▸ congrArg List.length h))
    · exact hne h

theorem updVec_mem {alpha : ℚ} {v dv : List ℚ} {x : ℚ} (h : x ∈ updVec alpha v dv) :
    ∃ q ∈ v.zip dv, x = q.1 + alpha * q.2 := by
  unfold updVec at h
  rw [zipWith_eq_map_zip] at h
  obtain ⟨q, hq, rfl⟩ := List.mem_map.mp h
  exact ⟨q, hq, rfl⟩

theorem stepAlpha_nonneg {z dz s ds : List ℚ} (hz : allPos z) (hs : allPos s) :
    0 ≤ stepAlpha z dz s ds := by
  unfold stepAlpha
  refine le_min (mul_nonneg (by norm_num) (le_min ?_ ?_)) zero_le_one
  · exact stepOf_nonneg z dz hz
  · exact stepOf_nonneg s ds hs

theorem stepAlpha_le_s {z dz s ds : List ℚ} {a b : ℚ} (hab : (a, b) ∈ s.zip ds)
    (hb : b < 0) : stepAlpha z dz s ds ≤ 999 / 1000 * (-a / b) := by
  unfold stepAlpha
  refine le_trans (min_le_left _ _) ?_
  refine mul_le_mul_of_nonneg_left ?_ (by norm_num)
  exact le_trans (min_le_right _ _) (stepOf_le_ratio hab hb)

theorem stepAlpha_le_z {z dz s ds : List ℚ} {a b : ℚ} (hab : (a, b) ∈ z.zip dz)
    (hb : b < 0) : stepAlpha z dz s ds ≤ 999 / 1000 * (-a / b) := by
  unfold stepAlpha
  refine le_trans (min_le_left _ _) ?_
  refine mul_le_mul_of_nonneg_left ?_ (by norm_num)
  exact le_trans (min_le_left _ _) (stepOf_le_ratio hab hb)

theorem updVec_allPos {v dv : List ℚ} {alpha : ℚ} (hv : allPos v) (h0 : 0 ≤ alpha)
    (hb : ∀ a b, (a, b) ∈ v.zip dv → b < 0 → alpha ≤ 999 / 1000 * (-a / b)) :
    allPos (updVec alpha v dv) := by
  intro x hx
  obtain ⟨⟨a, b⟩, hq, rfl⟩ := updVec_mem hx
  have ha : 0 < a := hv a (List.of_mem_zip hq).1
  rcases le_or_lt 0 b with hb0 | hbn
  · have : 0 ≤ alpha * b := mul_nonneg h0 hb0
    linarith
  · have hle := hb a b hq hbn
    have hbne : b ≠ 0 := ne_of_lt hbn
    have hmul : 999 / 1000 * (-a / b) * b ≤ alpha * b :=
      mul_le_mul_of_nonpos_right hle hbn.le
    have hcalc : 999 / 1000 * (-a / b) * b = -(999 / 1000) * a := by
      field_simp
      ring
    nlinarith

theorem update_preserves_pos (s z ds dz : List ℚ) (hs : allPos s) (hz : allPos z) :
    allPos (updVec (stepAlpha z dz s ds) s ds) ∧
      allPos (updVec (stepAlpha z dz s ds) z dz) := by
  constructor
  · exact updVec_allPos hs (stepAlpha_nonneg hz hs)
      (fun a b hab hb => stepAlpha_le_s hab hb)
  · exact updVec_allPos hz (stepAlpha_nonneg hz hs)
      (fun a b hab hb => stepAlpha_le_z hab hb)

theorem shiftPos_allPos (v : List ℚ) : allPos (shiftPos v) := by
  intro x hx
  simp only [shiftPos] at hx
  split at hx
  · next hle =>
    obtain ⟨a, ha, rfl⟩ := List.mem_map.mp hx
    have := listMin_le_mem v a ha
    linarith
  · next hgt =>
    exact lt_of_lt_of_le (not_le.mp hgt) (listMin_le_mem v x hx)

theorem mkNext_s (P : Prob) (st : LoopSt) (c2 : KKTCache) (dx ds dz : List ℚ)
    (dy : Option (List ℚ)) :
    (mkNext P st c2 dx ds dz dy).s = updVec (stepAlpha st.z dz st.s ds) st.s ds := rfl

theorem mkNext_z (P : Prob) (st : LoopSt) (c2 : KKTCache) (dx ds dz : List ℚ)
    (dy : Option (List ℚ)) :
    (mkNext P st c2 dx ds dz dy).z = updVec (stepAlpha st.z dz st.s ds) st.z dz := rfl

theorem mkNext_best (P : Prob) (st : LoopSt) (c2 : KKTCache) (dx ds dz : List ℚ)
    (dy : Option (List ℚ)) : (mkNext P st c2 dx ds dz dy).best = (iterBest P st).1 := rfl

theorem iterBest_pos (P : Prob) (st : LoopSt) (hs : allPos st.s) (hz : allPos st.z)
    (hb : bestPos st.best) : bestPos (iterBest P st).1 := by
  have hlit : bestPos ⟨some (iterResids P st), some st.x, some st.z, some st.s, st.y⟩ :=
    ⟨fun v hv => by cases hv; exact hz, fun v hv => by cases hv; exact hs⟩
  rcases hbr : st.best.resids with _ | br
  · simp only [iterBest, hbr]
    exact hlit
  · simp only [iterBest, hbr]
    split
    · exact hlit
    · exact hb

theorem loopBody_ret_pos (P : Prob) (st : LoopSt) (hs : allPos st.s) (hz : allPos st.z)
    (hb : bestPos st.best) (r : PDResult) (h : loopBody P st = .ret r) :
    (∀ v, r.z = some v → allPos v) ∧ (∀ v, r.s = some v → allPos v) := by
  simp only [loopBody] at h
  cases hf : factor_kkt st.cache (iterD st) with
  | none =>
    simp only [hf] at h
    cases h
    exact ⟨fun v hv => hb.1 v hv, fun v hv => hb.2 v hv⟩
  | some c2 =>
    simp only [hf] at h
    split at h
    · cases h
      have hbp := iterBest_pos P st hs hz hb
      exact ⟨fun v hv => hbp.1 v hv, fun v hv => hbp.2 v hv⟩
    · cases h

theorem loopBody_cont_pos (P : Prob) (st : LoopSt) (hs : allPos st.s) (hz : allPos st.z)
    (hb : bestPos st.best) (st2 : LoopSt) (h : loopBody P st = .cont st2) :
    allPos st2.s ∧ allPos st2.z ∧ bestPos st2.best := by
  simp only [loopBody] at h
  cases hf : factor_kkt st.cache (iterD st) with
  | none =>
    simp only [hf] at h
    cases h
  | some c2 =>
    simp only [hf] at h
    split at h
    · cases h
    · cases h
      refine ⟨?_, ?_, ?_⟩
      · rw [mkNext_s]
        exact (update_preserves_pos _ _ _ _ hs hz).1
      · rw [mkNext_z]
        exact (update_preserves_pos _ _ _ _ hs hz).2
      · rw [mkNext_best]
        exact iterBest_pos P st hs hz hb

theorem loopRun_pos (P : Prob) : ∀ (f : ℕ) (st : LoopSt), allPos st.s → allPos st.z →
    bestPos st.best →
    (∀ v, (loopRun P f st).z = some v → allPos v) ∧
      (∀ v, (loopRun P f st).s = some v → allPos v)
  | 0, st, hs, hz, hb => by
    simp only [loopRun, checkReturn]
    exact ⟨fun v hv => hb.1 v hv, fun v hv => hb.2 v hv⟩
  | f + 1, st, hs, hz, hb => by
    rcases hbody : loopBody P st with r | st2
    · simp only [loopRun, hbody]
      exact loopBody_ret_pos P st hs hz hb r hbody
    · simp only [loopRun, hbody]
      obtain ⟨h1, h2, h3⟩ := loopBody_cont_pos P st hs hz hb st2 hbody
      exact loopRun_pos P f st2 h1 h2 h3

theorem initState_ok_pos (P : Prob) (st : LoopSt) (h : initState P = .ok st) :
    allPos st.s ∧ allPos st.z ∧ bestPos st.best := by
  simp only [initState] at h
  cases hf : factor_kkt P.cache (List.replicate (nineqOf P) 1) with
  | none =>
    simp only [hf] at h
    cases h
  | some c1 =>
    simp only [hf] at h
    cases h
    refine ⟨shiftPos_allPos _, shiftPos_allPos _, ?_⟩
    exact ⟨(fun v hv => nomatch hv), (fun v hv => nomatch hv)⟩

/-- Claim C1: for every run of `forward`, the slack `s` and inequality
dual `z` are strictly positive componentwise immediately after the
initialization shift, remain so after every per-iteration update
`v += alpha * dv`, and whatever slack/dual the solver returns is strictly
positive componentwise. -/
theorem C1_positivity :
    (∀ v : List ℚ, allPos (shiftPos v)) ∧
    (∀ s z ds dz : List ℚ, allPos s → allPos z →
      allPos (updVec (stepAlpha z dz s ds) s ds) ∧
        allPos (updVec (stepAlpha z dz s ds) z dz)) ∧
    (∀ (P : Prob) (r : PDResult), forward P = .ok r →
      (∀ v, r.z = some v → allPos v) ∧ (∀ v, r.s = some v → allPos v)) := by
  refine ⟨shiftPos_allPos, fun s z ds dz hs hz => update_preserves_pos s z ds dz hs hz, ?_⟩
  intro P r h
  simp only [forward] at h
  cases hi : initState P with
  | error e =>
    simp only [hi] at h
    cases h
  | ok st =>
    simp only [hi] at h
    cases h
    obtain ⟨h1, h2, h3⟩ := initState_ok_pos P st hi
    exact loopRun_pos P P.maxIter st h1 h2 h3

/-- Witness for C1 on a concrete run: `forward probStall` terminates on the
stall check of the first iteration with `z = s = [1]`, and the theorem
yields their positivity. -/
theorem C1_witness :
    forward probStall = .ok ⟨some [0], none, some [1], some [1], true⟩ ∧ 0 < (1 : ℚ) := by
  refine ⟨by with_unfolding_all rfl, ?_⟩
  exact (C1_positivity.2.2 probStall ⟨some [0], none, some [1], some [1], true⟩
    (by with_unfolding_all rfl)).1 [1] rfl 1 (by simp)

theorem get_step_singleton (v dv : List ℚ) :
    get_step [v] [dv] = [listMin (rowGuard (max 1 (listMax (rowRatio v dv))) v dv)] := by
  simp only [get_step, List.zipWith_cons_cons, List.zipWith_nil_right, List.map_cons,
    List.map_nil, listMax_singleton]
  rw [zipWith_zipWith_same]
  rfl

theorem get_step_eq_stepOf (v dv : List ℚ) : get_step [v] [dv] = [stepOf v dv] := by
  rw [get_step_singleton, stepOf_eq]

/-- Claim C2 (amended): for a single-batch call with strictly positive `v`
and no zero component in `dv`, `get_step` returns
`min_i { -v_i/dv_i : dv_i < 0 }` WITHOUT clamping to `1` (the clamp is
applied by the caller `forward`, not by `get_step`); the returned value is
strictly positive, and when every component of `dv` is positive the step
is `1`. -/
theorem C2_step_unclamped (v dv : List ℚ) (hlen : v.length = dv.length)
    (hv : allPos v) (hnz : ∀ x ∈ dv, x ≠ 0) :
    ((∃ x ∈ dv, x < 0) →
      get_step [v] [dv] = [listMin (negRatios v dv)] ∧ 0 < listMin (negRatios v dv)) ∧
    ((∀ x ∈ dv, 0 < x) → dv ≠ [] → get_step [v] [dv] = [1]) := by
  constructor
  · intro hneg
    have h1 := stepOf_eq_negRatios v dv hlen hnz hneg
    constructor
    · rw [get_step_eq_stepOf, h1]
    · apply listMin_negRatios_pos hv
      obtain ⟨b0, hb0m, hb0⟩ := hneg
      obtain ⟨a0, hab0⟩ := exists_pair_of_mem_right hlen hb0m
      intro hemp
      have hm : (-a0 / b0) ∈ negRatios v dv :=
        mem_negRatios.mpr ⟨(a0, b0), hab0, hb0, rfl⟩
      rw [hemp] at hm
      exact List.not_mem_nil _ hm
  · intro hpos hne
    rw [get_step_eq_stepOf, stepOf_all_pos v dv hlen hne hv hpos]

/-- Counterexample to C2 as stated: `get_step([2], [-1]) = 2`, so the
value returned by `get_step` is NOT clamped to at most `1` and does not
lie in `[0, 1]`. -/
theorem C2_counterexample : get_step [[2]] [[-1]] = [2] ∧ ¬ ((2 : ℚ) ≤ 1) := by
  refine ⟨by with_unfolding_all rfl, by norm_num⟩

/-- Witness for C2 on `v = [2, 1]`, `dv = [-1, 3]`: the step is the
(unclamped) minimum ratio over the negative direction components. -/
theorem C2_witness :
    get_step [[2, 1]] [[-1, 3]] = [listMin (negRatios [2, 1] [-1, 3])] ∧
      0 < listMin (negRatios [2, 1] [-1, 3]) :=
  (C2_step_unclamped [2, 1] [-1, 3] rfl (by norm_num [allPos])
    (by norm_num)).1 ⟨-1, by simp, by norm_num⟩

/-- Claim C3 (amended): in every iteration of `forward` in which the
reweighted factorization succeeds, the loop returns the best tracked
iterate from the termination check exactly when the stall counter reaches
`notImprovedLim`, or the best recorded residual is below `eps`, or the
duality measure has exceeded `10^100`; the inaccuracy warning is emitted
iff the returned best residual exceeds `1` AND `verbose >= 0` (the claim
omitted the `verbose >= 0` condition, refuted by `C3_counterexample`). -/
theorem C3_termination (P : Prob) (st : LoopSt)
    (hf : (factor_kkt st.cache (iterD st)).isSome = true) :
    ((∃ r, loopBody P st = Outcome.ret r) ↔
      ((iterBest P st).2 = P.notImprovedLim ∨
        (iterBest P st).1.resids.getD 0 < P.eps ∨ (10 : ℚ) ^ 100 < iterMu P st)) ∧
    (∀ r, loopBody P st = Outcome.ret r →
      (r.warned = true ↔ (1 < (iterBest P st).1.resids.getD 0 ∧ 0 ≤ P.verbose))) := by
  obtain ⟨c2, hc2⟩ := Option.isSome_iff_exists.mp hf
  constructor
  · constructor
    · rintro ⟨r, hr⟩
      simp only [loopBody, hc2] at hr
      split at hr
      · next hcond => exact hcond
      · cases hr
    · intro hcond
      refine ⟨checkReturn (iterBest P st).1 P.verbose, ?_⟩
      simp only [loopBody, hc2]
      rw [if_pos hcond]
  · intro r hr
    simp only [loopBody, hc2] at hr
    split at hr
    · cases hr
      simp [checkReturn, decide_eq_true_iff]
    · cases hr

/-- Counterexample to C3 as stated: a run that terminates from the
termination check with best residual `3 > 1` but `verbose = -1` emits NO
warning, while the claim says a warning is emitted whenever the returned
residual exceeds `1`. -/
theorem C3_counterexample :
    forward probStallQuiet = .ok (checkReturn bestQuiet probStallQuiet.verbose) ∧
      (1 : ℚ) < bestQuiet.resids.getD 0 ∧
      (checkReturn bestQuiet probStallQuiet.verbose).warned = false := by
  refine ⟨by with_unfolding_all rfl, by norm_num [bestQuiet], by with_unfolding_all rfl⟩

/-- Witness for C3 at a concrete state of `forward probStall`: the stall
check fires (`notImprovedLim = 0`) and the warning iff holds. -/
theorem C3_witness :
    (⟨some [0], none, some [1], some [1], true⟩ : PDResult).warned = true ↔
      (1 < (iterBest probStall stStall).1.resids.getD 0 ∧ 0 ≤ probStall.verbose) :=
  (C3_termination probStall stStall (by with_unfolding_all rfl)).2
    ⟨some [0], none, some [1], some [1], true⟩ (by with_unfolding_all rfl)

/-- Claim C4 (amended): for the `LU_PARTIAL` strategy, when the reweighted
`factor_kkt` fails INSIDE the iteration loop, `forward` returns the best
iterate tracked so far instead of propagating the exception.  (The claim
as stated — that this also covers the factorization performed before the
first iteration and every strategy — is refuted by `C4_counterexample`:
the initial factorization failure propagates out of `forward`.) -/
theorem C4_midloop_returns_best (P : Prob) (f : ℕ) (st : LoopSt)
    (h : factor_kkt st.cache (iterD st) = none) :
    loopRun P (f + 1) st = ⟨st.best.x, st.best.y, st.best.z, st.best.s, false⟩ := by
  simp only [loopRun, loopBody, h]

/-- Counterexample to C4 as stated: when the factorization performed
before the first iteration fails, `forward` propagates the exception
instead of returning a best iterate. -/
theorem C4_counterexample : forward probInitFail = .error .initFactorization := by
  with_unfolding_all rfl

/-- Witness for C4: a concrete mid-loop factorization failure returns the
previously tracked best iterate. -/
theorem C4_witness :
    factor_kkt stMidFail.cache (iterD stMidFail) = none ∧
      loopRun probStall 1 stMidFail = ⟨some [9], none, some [8], some [7], false⟩ := by
  refine ⟨by with_unfolding_all rfl, ?_⟩
  exact C4_midloop_returns_best probStall 0 stMidFail (by with_unfolding_all rfl)

theorem initState_best_none (P : Prob) (st : LoopSt) (h : initState P = .ok st) :
    st.best = ⟨none, none, none, none, none⟩ := by
  simp only [initState] at h
  cases hf : factor_kkt P.cache (List.replicate (nineqOf P) 1) with
  | none =>
    simp only [hf] at h
    cases h
  | some c1 =>
    simp only [hf] at h
    cases h
    rfl

/-- Claim C10: if the reweighted factorization fails on the very first
loop iteration, before any best iterate has been recorded, `forward`
returns `(None, None, None, None)` instead of numerical tensors. -/
theorem C10_first_iteration_failure (P : Prob)
    (h : firstIterFactorFails P = true) (hiter : 0 < P.maxIter) :
    forward P = .ok ⟨none, none, none, none, false⟩ := by
  simp only [firstIterFactorFails] at h
  cases hi : initState P with
  | error e =>
    simp only [hi] at h
    cases h
  | ok st =>
    simp only [hi] at h
    rw [Option.isNone_iff_eq_none] at h
    have hbest := initState_best_none P st hi
    obtain ⟨m, hm⟩ : ∃ m, P.maxIter = m + 1 := ⟨P.maxIter - 1, by omega⟩
    simp only [forward, hi, hm, loopRun, loopBody, h, hbest]

/-- Witness for C10 on a concrete problem whose first in-loop reweighted
factorization is singular. -/
theorem C10_witness :
    firstIterFactorFails probFirstIterFail = true ∧
      forward probFirstIterFail = .ok ⟨none, none, none, none, false⟩ := by
  refine ⟨by with_unfolding_all rfl, ?_⟩
  exact C10_first_iteration_failure probFirstIterFail (by with_unfolding_all rfl)
    (by decide)

/-- Claim C5: the quantities computed by each iteration of the `forward`
loop (`loopBody`) match Mehrotra's formulas: the affine step length is
`min(get_step(z, dz_aff), get_step(s, ds_aff), 1)`; the centering
parameter is `((s + a*ds_aff) . (z + a*dz_aff) / (s . z))^3`; and the
corrector right-hand side row `rs` is `(-mu*sigma + ds_aff*dz_aff)/s`
componentwise (the `rx`, `rz`, `ry` rows passed to the corrector solve in
`loopBody` are zero vectors by construction). -/
theorem C5_mehrotra (s z ds dz : List ℚ) (mu sg : ℚ) :
    alphaAff z dz s ds = min (stepOf z dz) (min (stepOf s ds) 1) ∧
    sigOf s z ds dz (alphaAff z dz s ds) =
      (dotQ (vecAdd s (smulVec (alphaAff z dz s ds) ds))
          (vecAdd z (smulVec (alphaAff z dz s ds) dz)) / dotQ s z) ^ 3 ∧
    (∀ i, i < (corrRs mu sg ds dz s).length →
      (corrRs mu sg ds dz s).getD i 0 =
        (-(mu * sg) + ds.getD i 0 * dz.getD i 0) / s.getD i 0) := by
  refine ⟨min_assoc _ _ _, ?_, ?_⟩
  · simp only [sigOf, dotQ, vecAdd, smulVec, List.zipWith_map_right]
  · intro i hi
    have hlen := hi
    simp only [corrRs, List.length_zipWith, lt_min_iff] at hlen
    rw [List.getD_eq_getElem _ _ hi, List.getD_eq_getElem _ _ hlen.1.1,
      List.getD_eq_getElem _ _ hlen.1.2, List.getD_eq_getElem _ _ hlen.2]
    simp only [corrRs, List.getElem_zipWith, neg_mul]

/-- Witness for C5 (instantiating the bounded-index conjunct at `i = 0`
on concrete data). -/
theorem C5_witness :
    (corrRs 1 1 [2] [3] [4]).getD 0 0 =
      (-(1 * 1) + (List.getD [2] 0 0) * (List.getD [3] 0 0)) / (List.getD [4] 0 0) :=
  (C5_mehrotra [4] [] [2] [3] 1 1).2.2 0 (by with_unfolding_all decide)

/-- Claim C6 (amended): the duality measure of `forward` line 190 equals
the absolute value of the mean of the `nineq` componentwise products,
`mu = |s . z| / nineq` — it is NOT divided by `nineq` a second time. -/
theorem C6_mu (s z : List ℚ) (n : ℕ) : muOf s z n = |dotQ s z| / (n : ℚ) := by
  rw [muOf, dotQ, abs_div, Nat.abs_cast]

/-- Counterexample to C6 as stated: for `s = [2,2]`, `z = [1,1]`,
`nineq = 2`, the code computes `mu = 2` while the claim's formula (mean of
the products divided again by `nineq`) gives `1`. -/
theorem C6_counterexample :
    muOf [2, 2] [1, 1] 2 = 2 ∧ muClaim [2, 2] [1, 1] 2 = 1 ∧
      muOf [2, 2] [1, 1] 2 ≠ muClaim [2, 2] [1, 1] 2 := by
  refine ⟨by with_unfolding_all rfl, by with_unfolding_all rfl, by with_unfolding_all decide⟩

/-- Claim C7 (amended): `pre_factor_kkt` raises the "Q not PSD /
non-invertible" diagnostic exactly when the LU factorization of `Q` fails
and never silently returns factors in that case; when `Q`'s factorization
succeeds it returns `(Q_LU, S_LU, R)` without raising PROVIDED there are
no equality constraints, or the unguarded factorization of the equality
block `A Q^{-1} A^T` (line 816) also succeeds — the unconditional claim is
refuted by `C7_counterexample`. -/
theorem C7_pre_factor :
    (∀ (Q G F : List (List ℚ)) (A : Option (List (List ℚ))),
      luFactor Q = none → pre_factor_kkt Q G F A = .error .qNotPSD) ∧
    (∀ (Q G F : List (List ℚ)) (A : Option (List (List ℚ)))
      (qlu : List (List ℚ) × List ℕ),
      luFactor Q = some qlu → (A.getD []).length = 0 →
      ∃ c, pre_factor_kkt Q G F A = .ok c) ∧
    (∀ (Q G F : List (List ℚ)) (A : Option (List (List ℚ)))
      (qlu alu : List (List ℚ) × List ℕ),
      luFactor Q = some qlu → 0 < (A.getD []).length →
      luFactor (matMul (A.getD []) (luSolveMat qlu (transpose (A.getD [])))) = some alu →
      ∃ c, pre_factor_kkt Q G F A = .ok c) := by
  refine ⟨?_, ?_, ?_⟩
  · intro Q G F A h
    simp only [pre_factor_kkt, h]
  · intro Q G F A qlu h hneq
    simp only [pre_factor_kkt, h]
    rw [if_neg (by omega)]
    exact ⟨_, rfl⟩
  · intro Q G F A qlu alu hq hneq halu
    simp only [pre_factor_kkt, hq]
    rw [if_pos hneq]
    simp only [halu]
    exact ⟨_, rfl⟩

/-- Counterexample to C7 as stated: with `Q = [[1]]` (whose factorization
succeeds) and `A = [[0]]`, the equality block `A Q^{-1} A^T = [[0]]` is
singular, so `pre_factor_kkt` propagates a backend factorization error
even though `Q`'s factorization succeeded — it does not return
`(Q_LU, S_LU, R)`. -/
theorem C7_counterexample :
    luFactor [[1]] = some ([[1]], [0]) ∧
      pre_factor_kkt [[1]] [[1]] [[0]] (some [[0]]) = .error .backendFactorization := by
  refine ⟨by with_unfolding_all rfl, by with_unfolding_all rfl⟩

/-- Witness for C7: a singular `Q` produces the "Q not PSD" diagnostic,
and a well-posed inequality-only problem returns its factors. -/
theorem C7_witness :
    pre_factor_kkt [[0]] [[1]] [[0]] none = .error .qNotPSD ∧
      pre_factor_kkt [[1]] [[1]] [[0]] none = .ok ⟨([[1]], [0]), ([[0]], [0]), [[1]]⟩ := by
  constructor
  · exact C7_pre_factor.1 [[0]] [[1]] [[0]] none (by with_unfolding_all rfl)
  · with_unfolding_all rfl

theorem swapRows_length (M : List (List ℚ)) (i j : ℕ) :
    (swapRows M i j).length = M.length := by
  unfold swapRows
  split <;> simp

theorem swapRows_rows {M : List (List ℚ)} {c : ℕ} (h : ∀ r ∈ M, r.length = c)
    (i j : ℕ) : ∀ r ∈ swapRows M i j, r.length = c := by
  unfold swapRows
  split
  · next hij =>
    intro r hr
    rcases List.mem_or_eq_of_mem_set hr with hr2 | rfl
    · rcases List.mem_or_eq_of_mem_set hr2 with hr3 | rfl
      · exact h r hr3
      · rw [List.getD_eq_getElem _ _ hij.2]
        exact h _ (List.getElem_mem hij.2)
    · rw [List.getD_eq_getElem _ _ hij.1]
      exact h _ (List.getElem_mem hij.1)
  · exact h

theorem elimRow_length (pivRow r : List ℚ) (k : ℕ) :
    (elimRow pivRow r k).length = r.length := by
  simp [elimRow]

theorem luStep_shape {M M2 : List (List ℚ)} {k p : ℕ}
    (h : luStep M k = some (M2, p)) :
    M2.length = M.length ∧ ∀ c, (∀ r ∈ M, r.length = c) → ∀ r ∈ M2, r.length = c := by
  simp only [luStep] at h
  split at h
  · cases h
  · cases h
    constructor
    · have hsw := swapRows_length M k (k + argmaxAbs ((M.drop k).map fun r => r.getD k 0))
      simp only [List.length_append, List.length_take, List.length_map, List.length_drop, hsw]
      omega
    · intro c hc r hr
      have hswr := swapRows_rows hc k (k + argmaxAbs ((M.drop k).map fun r => r.getD k 0))
      rcases List.mem_append.mp hr with hr | hr
      · exact hswr r (List.mem_of_mem_take hr)
      · obtain ⟨r0, hr0, rfl⟩ := List.mem_map.mp hr
        rw [elimRow_length]
        exact hswr r0 (List.mem_of_mem_drop hr0)

theorem luGo_shape : ∀ (ks : List ℕ) (M D : List (List ℚ)) (ps : List ℕ),
    luGo M ks = some (D, ps) →
    D.length = M.length ∧ ps.length = ks.length ∧
      ∀ c, (∀ r ∈ M, r.length = c) → ∀ r ∈ D, r.length = c
  | [], M, D, ps, h => by
    simp only [luGo] at h
    cases h
    exact ⟨rfl, rfl, fun c hc => hc⟩
  | k :: ks, M, D, ps, h => by
    simp only [luGo] at h
    cases hstep : luStep M k with
    | none =>
      simp only [hstep] at h
      exact Option.noConfusion h
    | some Mp =>
      simp only [hstep] at h
      cases hgo : luGo Mp.1 ks with
      | none =>
        simp only [hgo] at h
        exact Option.noConfusion h
      | some Dps =>
        simp only [hgo] at h
        cases h
        obtain ⟨h1, h2, h3⟩ := luGo_shape ks Mp.1 Dps.1 Dps.2 (by rw [hgo])
        have hpair : luStep M k = some (Mp.1, Mp.2) := hstep
        obtain ⟨hs1, hs2⟩ := luStep_shape hpair
        refine ⟨by rw [h1, hs1], by simp [h2], ?_⟩
        intro c hc
        exact h3 c (hs2 c hc)

theorem luFactor_shape {M D : List (List ℚ)} {ps : List ℕ}
    (h : luFactor M = some (D, ps)) :
    D.length = M.length ∧ ps.length = M.length ∧
      ∀ c, (∀ r ∈ M, r.length = c) → ∀ r ∈ D, r.length = c := by
  obtain ⟨h1, h2, h3⟩ := luGo_shape _ _ _ _ h
  exact ⟨h1, by simpa using h2, h3⟩

theorem addDiag_length (M : List (List ℚ)) (v : List ℚ) :
    (addDiag M v).length = M.length := by
  simp [addDiag]

theorem matMul_length (A B : List (List ℚ)) : (matMul A B).length = A.length := by
  simp [matMul]

theorem matMul_rows (A B : List (List ℚ)) : ∀ r ∈ matMul A B, r.length = numCols B := by
  intro r hr
  obtain ⟨a, _, rfl⟩ := List.mem_map.mp hr
  simp

theorem transpose_length (M : List (List ℚ)) : (transpose M).length = numCols M := by
  simp [transpose]

theorem numCols_eq {M : List (List ℚ)} {m : ℕ} (h0 : 0 < M.length)
    (h : ∀ r ∈ M, r.length = m) : numCols M = m := by
  cases M with
  | nil => simp at h0
  | cons r t => simpa [numCols] using h r (by simp)

theorem foldl_swapRows_shape (l : List (ℕ × ℕ)) :
    ∀ (M : List (List ℚ)) (n : ℕ), M.length = n → (∀ r ∈ M, r.length = n) →
      (l.foldl (fun M2 kp => swapRows M2 kp.1 kp.2) M).length = n ∧
        ∀ r ∈ l.foldl (fun M2 kp => swapRows M2 kp.1 kp.2) M, r.length = n := by
  induction l with
  | nil => intro M n h1 h2; exact ⟨h1, h2⟩
  | cons kp l ih =>
    intro M n h1 h2
    exact ih (swapRows M kp.1 kp.2) n (by rw [swapRows_length, h1])
      (swapRows_rows h2 kp.1 kp.2)

theorem permFromPivots_shape (piv : List ℕ) (n : ℕ) :
    (permFromPivots piv n).length = n ∧ ∀ r ∈ permFromPivots piv n, r.length = n := by
  apply foldl_swapRows_shape
  · simp [identityMat]
  · intro r hr
    simp only [identityMat, List.mem_map] at hr
    obtain ⟨i, _, rfl⟩ := hr
    simp

theorem map_drop_zipWith_append (k : ℕ) :
    ∀ (S T : List (List ℚ)), (T ≠ [] → ∀ r ∈ S, r.length = k) → T.length ≤ S.length →
      (List.zipWith (· ++ ·) S T).map (fun r => r.drop k) = T
  | S, [], _, _ => by simp
  | [], t :: ts, _, h => by simp at h
  | s :: S, t :: ts, hr, h => by
    simp only [List.zipWith_cons_cons, List.map_cons]
    have hs : s.length = k := hr (by simp) s (by simp)
    have h1 : List.drop k (s ++ t) = t := by
      rw [← hs]
      exact List.drop_left s t
    have h2 := map_drop_zipWith_append k S ts
      (fun _ r hrm => hr (by simp) r (by simp [hrm])) (by simpa using h)
    rw [h1, h2]

/-- Claim C9: per iteration, `factor_kkt` leaves `Q_LU` and `R` unchanged
and mutates only the last `nineq` rows of the cached `S_LU`: the completed
lower-right `nineq x nineq` block equals the factorization data of
`R + diag(1/d)`, the last `nineq` pivots are the new block pivots offset
by `neq` (with the off-diagonal `S_LU_21` re-pivot correction confined to
those same rows), while the first `neq` rows of the `S_LU` data and the
first `neq` pivots are unchanged. -/
theorem C9_frame (c : KKTCache) (d : List ℚ) (c2 : KKTCache)
    (hrows : c.slu.1.length = c.slu.2.length)
    (hcols : ∀ r ∈ c.slu.1, r.length = c.slu.2.length)
    (hR : c.R.length = d.length)
    (hd : d.length ≤ c.slu.2.length)
    (h : factor_kkt c d = some c2) :
    c2.qlu = c.qlu ∧ c2.R = c.R ∧
    c2.slu.1.take (c.slu.2.length - d.length) =
      c.slu.1.take (c.slu.2.length - d.length) ∧
    c2.slu.2.take (c.slu.2.length - d.length) =
      c.slu.2.take (c.slu.2.length - d.length) ∧
    ∃ Td Tp, luFactor (addDiag c.R (d.map (fun di => 1 / di))) = some (Td, Tp) ∧
      (c2.slu.1.drop (c.slu.2.length - d.length)).map
          (fun r => r.drop (c.slu.2.length - d.length)) = Td ∧
      c2.slu.2.drop (c.slu.2.length - d.length) =
        Tp.map (fun q => q + (c.slu.2.length - d.length)) := by
  simp only [factor_kkt] at h
  cases hT : luFactor (addDiag c.R (d.map fun di => 1 / di)) with
  | none =>
    simp only [hT] at h
    exact Option.noConfusion h
  | some Tlu =>
    simp only [hT] at h
    cases h
    have hpairT : luFactor (addDiag c.R (d.map fun di => 1 / di)) = some (Tlu.1, Tlu.2) :=
      hT
    have hTd : Tlu.1.length = d.length := by
      rw [(luFactor_shape hpairT).1, addDiag_length, hR]
    have htk : (c.slu.1.take (c.slu.2.length - d.length)).length =
        c.slu.2.length - d.length := by
      rw [List.length_take]
      omega
    have htk2 : (c.slu.2.take (c.slu.2.length - d.length)).length =
        c.slu.2.length - d.length := by
      rw [List.length_take]
      omega
    have hS21len : ((c.slu.1.drop (c.slu.2.length - d.length)).map
        (fun r => r.take (c.slu.2.length - d.length))).length = d.length := by
      simp only [List.length_map, List.length_drop, hrows]
      omega
    have hS21rows : ∀ r ∈ (c.slu.1.drop (c.slu.2.length - d.length)).map
        (fun r => r.take (c.slu.2.length - d.length)),
        r.length = c.slu.2.length - d.length := by
      intro r hr
      obtain ⟨r0, hr0, rfl⟩ := List.mem_map.mp hr
      rw [List.length_take, hcols r0 (List.mem_of_mem_drop hr0)]
      omega
    refine ⟨rfl, rfl, List.take_left' htk, List.take_left' htk2, Tlu.1, Tlu.2,
      rfl, ?_, ?_⟩
    · show ((c.slu.1.take (c.slu.2.length - d.length) ++ _).drop
        (c.slu.2.length - d.length)).map _ = Tlu.1
      rw [List.drop_left' htk]
      by_cases hne : d.length = 0
      · have hnil : Tlu.1 = [] := List.length_eq_zero.mp (by omega)
        simp [hnil]
      · apply map_drop_zipWith_append
        · intro _
          by_cases hneq : 0 < c.slu.2.length - d.length
          · rw [if_pos hneq]
            intro r hr
            have hXlen : (matMul (permFromPivots ((c.slu.2.drop
                (c.slu.2.length - d.length)).map
                (fun q => q - (c.slu.2.length - d.length))) d.length)
                ((c.slu.1.drop (c.slu.2.length - d.length)).map
                  (fun r => r.take (c.slu.2.length - d.length)))).length = d.length := by
              rw [matMul_length, (permFromPivots_shape _ _).1]
            have hnc : numCols ((c.slu.1.drop (c.slu.2.length - d.length)).map
                (fun r => r.take (c.slu.2.length - d.length))) =
                c.slu.2.length - d.length :=
              numCols_eq (by rw [hS21len]; omega) hS21rows
            have hncX : numCols (matMul (permFromPivots ((c.slu.2.drop
                (c.slu.2.length - d.length)).map
                (fun q => q - (c.slu.2.length - d.length))) d.length)
                ((c.slu.1.drop (c.slu.2.length - d.length)).map
                  (fun r => r.take (c.slu.2.length - d.length)))) =
                c.slu.2.length - d.length := by
              apply numCols_eq (by rw [hXlen]; omega)
              intro r2 hr2
              rw [matMul_rows _ _ r2 hr2, hnc]
            rw [matMul_rows _ _ r hr, hncX]
          · rw [if_neg hneq]
            exact hS21rows
        · by_cases hneq : 0 < c.slu.2.length - d.length
          · rw [if_pos hneq, hTd, matMul_length, transpose_length,
              numCols_eq (by rw [(permFromPivots_shape Tlu.2 d.length).1]; omega)
                (permFromPivots_shape Tlu.2 d.length).2]
          · rw [if_neg hneq, hS21len, hTd]
    · exact List.drop_left' htk2

/-- Witness for C9 on a concrete 1x1 cache: the lower-right block is
completed to `[[2 + 1/1]] = [[3]]` while `Q_LU` and `R` are untouched. -/
theorem C9_witness :
    factor_kkt cacheW9 [1] = some cacheW9out ∧ cacheW9out.qlu = cacheW9.qlu ∧
      cacheW9out.R = cacheW9.R := by
  have hfac : factor_kkt cacheW9 [1] = some cacheW9out := by with_unfolding_all rfl
  have hfr := C9_frame cacheW9 [1] cacheW9out rfl (by simp [cacheW9]) rfl
    (by decide) hfac
  exact ⟨hfac, hfr.1, hfr.2.1⟩

/-- Sanity check: the cache stored in `refProb` is exactly the output of
`pre_factor_kkt` on the reference problem's data (with the absent `F`
passed as the zero matrix). -/
theorem refProb_cache_eq :
    pre_factor_kkt refProb.Q refProb.G [[0]] refProb.A = .ok refProb.cache := by
  with_unfolding_all rfl

